import Mathlib

/-!
Shallow embedding of the scoring/resampling core of `music.py` and the
mixtape builder of `insights.py`, together with theorems settling the
frozen claims about the natural-language specification.

Modelling conventions:
* Python floats are modelled as `ℚ` (exact arithmetic); the two uses of
  transcendental functions (`math.log` in the score, `exp` in the
  similarity metric) are modelled over `ℝ` with `Real.log` / `Real.exp`.
* `datetime`/`timedelta` values are modelled as `ℚ` numbers of seconds.
* Python exceptions are modelled by `Option`: `none` is a raised error.
* The standard-library PRNG (`random.seed` / `random.uniform`) is not part
  of the repository; it is modelled from the spec as a deterministic
  stream of draws (see `pyUniform`).
-/

namespace Tracktastic

/-- `ONE_DAY` in seconds. -/
def oneDay : ℚ := 86400

/-- `ONE_MONTH = timedelta(days=30)` in seconds. -/
def oneMonth : ℚ := 30 * 86400

/-- `ONE_YEAR = timedelta(days=365.25)` in seconds. -/
def oneYear : ℚ := (36525 : ℚ) / 100 * 86400

/-- `MEDIAN_SONG_LENGTH = timedelta(minutes=3, seconds=48.1)` in seconds. -/
def medianSongLength : ℚ := 3 * 60 + (481 : ℚ) / 10

/-- `DEFAULT_SCORE_BASE = 1.591` (the class variable `Track.score_base`). -/
def scoreBase : ℚ := (1591 : ℚ) / 1000

/-- `TARGET_MEDIAN_SCORE = (5.0 + 0.05) / 2`. -/
def targetMedianScore : ℚ := (5 + (5 : ℚ) / 100) / 2

/-- The subset of the `Track` dataclass fields that the verified claims
read.  Timestamps and durations are rationals (seconds); `score`,
`overdue` are the derived float fields of the dataclass. -/
structure Track where
  name : String
  track_artist : String
  album : String
  album_artist : String
  genre : String
  year : ℤ
  track_number : ℤ
  play_count : ℕ
  skip_count : ℕ
  duration : ℚ
  date_added : ℚ
  compilation : Bool
  favorite : Bool
  disliked : Bool
  last_played : ℚ
  last_skipped : ℚ
  score : ℚ
  overdue : ℚ
  playlists : List String
  deriving Repr, DecidableEq

/-- The class-level down-ranking configuration installed by
`Track.set_down_ranked` (both lists already case-folded, as in the
source). -/
structure DownrankConfig where
  artists : List String
  genres : List String
  deriving Repr, DecidableEq

/-- ASCII lower-casing of one character. -/
def lowerChar (c : Char) : Char :=
  if c.toNat ≥ 65 ∧ c.toNat ≤ 90 then Char.ofNat (c.toNat + 32) else c

/-- Model of Python `str.casefold` for the ASCII strings appearing in the
library data: lower-casing. -/
def pyCasefold (s : String) : String := String.mk (s.data.map lowerChar)

/-- Model of the Python substring test `needle in hay` on character
lists: `needle` is a contiguous subsequence of `hay` (the empty needle
matches everywhere, as in Python). -/
def pyContains : List Char → List Char → Bool
  | hay, needle =>
    match hay with
    | [] => needle.isEmpty
    | _ :: rest => needle.isPrefixOf hay || pyContains rest needle

/-- `Track.is_downranked`: genre or album-artist (case-folded) in the
down-ranked sets, or a *truthy* (non-empty) down-ranked artist occurring
as a substring of the case-folded primary artist (the source's
`any(artist for artist in self.downranked_artists if artist in ...)`
skips falsy empty strings). -/
def is_downranked (cfg : DownrankConfig) (t : Track) : Bool :=
  cfg.genres.contains (pyCasefold t.genre)
    || cfg.artists.contains (pyCasefold t.album_artist)
    || cfg.artists.any (fun a =>
        pyContains (pyCasefold t.track_artist).data a.data && !(a == ""))

/-- `min(track.score for track in tracks)`; Python `min` raises on an
empty collection, the `0` default branch is never reached by callers that
guard non-emptiness. -/
def minScore : List Track → ℚ
  | [] => 0
  | t :: ts => ts.foldl (fun m x => min m x.score) t.score

/-- One iteration of the weight loop of `weighted_shuffle`:
`weight = score - min_score + 0.01`, `weight *= 1 + overdue`, then
halved if down-ranked, **else** doubled if favorite (the source uses
`elif`). -/
def trackWeight (cfg : DownrankConfig) (min_score : ℚ) (t : Track) : ℚ :=
  let weight := t.score - min_score + (1 : ℚ) / 100
  let weight := weight * (1 + t.overdue)
  if is_downranked cfg t then weight / 2
  else if t.favorite then weight * 2
  else weight

/-- The `weights` list built by `weighted_shuffle` before the selection
loop. -/
def shuffleWeights (cfg : DownrankConfig) (tracks : List Track) : List ℚ :=
  tracks.map (trackWeight cfg (minScore tracks))

/-- The inner scan of the selection loop: subtract each weight from `r`
in order and report the first index where `r` becomes `≤ 0` (`none` when
the scan completes, which in the source triggers
`RuntimeError("Weighted shuffle failed")`). -/
def pickIndex (r : ℚ) : List ℚ → Option ℕ
  | [] => none
  | w :: ws =>
    if r - w ≤ 0 then some 0
    else (pickIndex (r - w) ws).map (· + 1)

/-- The `while tracks:` selection loop of `weighted_shuffle`, with
explicit fuel (the initial list length bounds the number of
iterations).  `draws k total` models the `k`-th call of
`random.uniform(0, total)`.  `none` models the raised `RuntimeError`. -/
def shuffleLoop (draws : ℕ → ℚ → ℚ) :
    ℕ → ℕ → List Track → List ℚ → ℚ → Option (List Track)
  | 0, _, tracks, _, _ => if tracks.isEmpty then some [] else none
  | n + 1, k, tracks, weights, total =>
    match tracks with
    | [] => some []
    | _ :: _ =>
      let r := draws k total
      match pickIndex r weights with
      | none => none
      | some i =>
        match tracks[i]? with
        | none => none
        | some picked =>
          (shuffleLoop draws n (k + 1) (tracks.eraseIdx i)
              (weights.eraseIdx i) (total - weights.getD i 0)).map
            (fun rest => picked :: rest)

/-- `weighted_shuffle(tracks)`.  The per-day seeding is abstracted into
the `draws` stream (see `pyUniform`); `none` models any raised
exception (`ValueError` from `min` on an empty list, or the
`RuntimeError` of a failed scan). -/
def weightedShuffle (draws : ℕ → ℚ → ℚ) (cfg : DownrankConfig)
    (tracks : List Track) : Option (List Track) :=
  match tracks with
  | [] => none
  | _ :: _ =>
    let weights := shuffleWeights cfg tracks
    shuffleLoop draws tracks.length 0 tracks weights weights.sum

/-- The call-level view of `weighted_shuffle`: the body first rebinds
`tracks = tracks.copy()`, so every `pop` hits the fresh copy and the
caller's list object is left untouched; the second component is the
content of the caller's list object after the call returns. -/
def weightedShuffleCall (draws : ℕ → ℚ → ℚ) (cfg : DownrankConfig)
    (caller : List Track) : Option (List Track) × List Track :=
  (weightedShuffle draws cfg caller, caller)

/-- Modelled from the spec: the standard-library PRNG behind
`random.seed(seed)` / `random.uniform(0, total)` is a deterministic
generator; it is modelled as a linear-congruential stream (state mod
`2^32`). -/
def lcgNext (s : ℕ) : ℕ := (1664525 * s + 1013904223) % 4294967296

/-- The PRNG state after `n` draws from the given seed. -/
def lcgIter (seed : ℕ) : ℕ → ℕ
  | 0 => seed % 4294967296
  | n + 1 => lcgNext (lcgIter seed n)

/-- Modelled from the spec: `random.uniform(0, b)` at the `k`-th call
after `random.seed(seed)` — a deterministic fraction of `b` in `[0, b]`
for `b ≥ 0`. -/
def pyUniform (seed : ℕ) (k : ℕ) (b : ℚ) : ℚ :=
  b * ((lcgIter seed (k + 1) : ℚ) / 4294967296)

/-- Insertion step of the model of Python `sorted` / `list.sort`:
insert before the first element not strictly smaller, which keeps the
sort stable, exactly as CPython's sort is. -/
def pyInsert {α : Type} (le : α → α → Bool) (x : α) : List α → List α
  | [] => [x]
  | y :: ys => if le x y then x :: y :: ys else y :: pyInsert le x ys

/-- Model of Python `sorted(l)` (stable ascending sort) by structural
insertion sort. -/
def pySorted {α : Type} (le : α → α → Bool) (l : List α) : List α :=
  l.foldr (pyInsert le) []

/-- The module-level `median` helper: middle of the sorted values for an
odd count, average of the two central sorted values for an even count. -/
def statsMedian (values : List ℚ) : ℚ :=
  let count := values.length
  let sorted_values := pySorted (fun a b => decide (a ≤ b)) values
  let half := count / 2
  if count % 2 = 1 then sorted_values.getD half 0
  else (sorted_values.getD (half - 1) 0 + sorted_values.getD half 0) / 2

/-- `MetadataStats.total = sum(values, ...)`. -/
def statsTotal (values : List ℚ) : ℚ := values.sum

/-- `MetadataStats.avg = total / count`. -/
def statsAvg (values : List ℚ) : ℚ := statsTotal values / values.length

/-- `MetadataStats.min = min(values)` (Python `min` raises on an empty
list; the `0` branch is unreachable under the `assert count > 0`). -/
def statsMin : List ℚ → ℚ
  | [] => 0
  | x :: xs => xs.foldl min x

/-- `MetadataStats.max = max(values)`. -/
def statsMax : List ℚ → ℚ
  | [] => 0
  | x :: xs => xs.foldl max x

/-- Python `max(iterable, key=...)`: the scan keeps the current best and
replaces it only on a strictly greater key, so the **first** element (in
iteration order) achieving the maximal key is returned. -/
def pyMaxBy (key : ℚ → ℕ) : List ℚ → ℚ
  | [] => 0
  | x :: xs => xs.foldl (fun best y => if key best < key y then y else best) x

/-- Model of CPython `set(values)` iteration order for the modelled
domain: the distinct values in ascending order.  (CPython iterates the
hash table in slot order; for distinct non-negative integer-valued
numbers below the table size, `hash(x) = x` occupies slot `x`, so the
iteration is ascending — in particular it is **not** first-occurrence
order.) -/
def pySetList (values : List ℚ) : List ℚ :=
  pySorted (fun a b => decide (a ≤ b)) values.dedup

/-- `MetadataStats.mode = max(set(values), key=values.count)`. -/
def statsMode (values : List ℚ) : ℚ :=
  pyMaxBy (fun v => values.count v) (pySetList values)

/-- The distinct values of a list, each at its first occurrence, in
input order. -/
def dedupFirst : List ℚ → List ℚ
  | [] => []
  | x :: xs => x :: (dedupFirst xs).filter (fun y => decide (y ≠ x))

/-- Modelled from the spec: "mode (most frequent value; ties resolved by
first occurrence in the supplied order)" — the scan runs over the
distinct values in first-occurrence order instead of set order. -/
def firstSeenMode (values : List ℚ) : ℚ :=
  pyMaxBy (fun v => values.count v) (dedupFirst values)

/-- The accumulation of `filter_duration`: running `length`, appending a
track only while the running total stays within the budget, and
continuing the scan (not stopping) past a track that does not fit. -/
def filterDurAux (budget : ℚ) (length : ℚ) : List Track → List Track
  | [] => []
  | t :: ts =>
    if length + t.duration ≤ budget then
      t :: filterDurAux budget (length + t.duration) ts
    else filterDurAux budget length ts

/-- `filter_duration(tracks, duration)` from `music.py`. -/
def filter_duration (tracks : List Track) (duration : ℚ) : List Track :=
  filterDurAux duration 0 tracks

/-- `filter_unique_track_numbers(tracks)`: keep the first track seen for
each track number. -/
def filterUniqueTrackNumbersAux (seen : List ℤ) : List Track → List Track
  | [] => []
  | t :: ts =>
    if t.track_number ∈ seen then filterUniqueTrackNumbersAux seen ts
    else t :: filterUniqueTrackNumbersAux (t.track_number :: seen) ts

/-- `filter_unique_track_numbers(tracks)` from `music.py`. -/
def filter_unique_track_numbers (tracks : List Track) : List Track :=
  filterUniqueTrackNumbersAux [] tracks

/-- The `master` list of `insights.mixtape`: tracks not skipped within
the last month and not played within the last three days (`now` is the
`NOW` module constant, in seconds). -/
def mixtapeMaster (now : ℚ) (tracks : List Track) : List Track :=
  tracks.filter (fun t =>
    decide (now - t.last_skipped > oneMonth) &&
    decide (now - t.last_played > 3 * oneDay))

/-- The 45-minute duration budget of the mixtape, in seconds. -/
def mixtapeBudget : ℚ := 45 * 60

/-- The main sequence of `insights.mixtape` (everything before the bonus
track): drop track number 0, deduplicate by track number, greedily fit
the 45-minute budget, sort ascending by track number. -/
def mixtapeMain (now : ℚ) (tracks : List Track) : List Track :=
  let master := mixtapeMaster now tracks
  let m1 := master.filter (fun t => decide (t.track_number ≠ 0))
  let m2 := filter_unique_track_numbers m1
  let m3 := filter_duration m2 mixtapeBudget
  pySorted (fun a b => decide (a.track_number ≤ b.track_number)) m3

/-- The trailing bonus of `insights.mixtape`: the first track-number-0
element of `master`, if any. -/
def mixtapeBonus (now : ℚ) (tracks : List Track) : List Track :=
  ((mixtapeMaster now tracks).filter (fun t => decide (t.track_number = 0))).take 1

/-- Cumulative duration of a track list. -/
def durSum (tracks : List Track) : ℚ := (tracks.map Track.duration).sum

/-- `net_rate` as computed in `Track.from_api` (lines 214–235 of
`music.py`), as a function of the raw counters, the track duration
(seconds) and the age in years. -/
def netRate (play_count skip_count : ℕ) (duration years_since_added : ℚ) : ℚ :=
  let play_rate := (play_count : ℚ) / years_since_added
  let skip_rate := (skip_count : ℚ) / years_since_added
  let time_spent_listening := (play_count : ℚ) * duration
  let listen_rate := time_spent_listening / years_since_added
  let norm_listen_rate := listen_rate / medianSongLength
  (play_rate + norm_listen_rate - skip_rate) / 2

/-- `score = math.log(1 + net_rate, cls.score_base)`: the base-`b`
logarithm over the reals. -/
noncomputable def scoreOf (net_rate : ℚ) : ℝ :=
  Real.log (1 + (net_rate : ℝ)) / Real.log ((scoreBase : ℚ) : ℝ)

/-- Model of Python `str.islower` for ASCII strings: at least one cased
character and no upper-case character. -/
def pyIslower (s : String) : Bool :=
  s.data.any Char.isAlpha && s.data.all (fun c => !c.isUpper)

/-- Model of Python `str.isupper` for ASCII strings: at least one cased
character and no lower-case character. -/
def pyIsupper (s : String) : Bool :=
  s.data.any Char.isAlpha && s.data.all (fun c => !c.isLower)

/-- Python `date()` of a timestamp in seconds: the calendar day index. -/
def pyDate (t : ℚ) : ℤ := ⌊t / oneDay⌋

/-- The 13-entry feature vector of `Track.similarity_to`, in source
order; booleans contribute `1` or `0` exactly as in the Python float
coercion. -/
def simVec (a b : Track) : List ℚ :=
  let year_diff := |a.year - b.year|
  let year_sim : ℚ := if year_diff ≤ 5 then 1 - (year_diff : ℚ) / 5 else 0
  let added_diff := |a.date_added - b.date_added|
  let added_sim : ℚ :=
    if added_diff ≤ 6 * oneMonth then 1 - added_diff / (6 * oneMonth) else 0
  let combined_playlists := a.playlists.toFinset ∪ b.playlists.toFinset
  let common_playlists := a.playlists.toFinset ∩ b.playlists.toFinset
  let playlist_sim : ℚ :=
    if combined_playlists = ∅ then 0
    else (common_playlists.card : ℚ) / (combined_playlists.card : ℚ)
  let duration_diff := |a.duration - b.duration|
  let duration_sim : ℚ :=
    if duration_diff ≤ medianSongLength then 1 - duration_diff / medianSongLength
    else 0
  let score_diff := |a.score - b.score|
  let score_sim : ℚ :=
    if score_diff < targetMedianScore then 1 - score_diff / targetMedianScore
    else 0
  let overdue_diff := |a.overdue - b.overdue|
  let overdue_sim : ℚ := if overdue_diff ≤ 1 then 1 - overdue_diff else 0
  [ if a.album = b.album then 1 else 0,
    if a.album_artist = b.album_artist then 1 else 0,
    if a.genre = b.genre then 1 else 0,
    year_sim,
    added_sim,
    if pyDate a.last_played = pyDate b.last_played then 1 else 0,
    playlist_sim,
    if a.compilation = b.compilation then 1 else 0,
    duration_sim,
    score_sim,
    overdue_sim,
    if pyIslower a.name = pyIslower b.name ∧ pyIsupper a.name = pyIsupper b.name
      then 1 else 0,
    if a.track_number = b.track_number then 1 else 0 ]

/-- `Track.similarity_to`: softmax-style normalization
`(Σ exp(α·vᵢ) − n·exp 0) / (n·exp α − n·exp 0)` with `α` the score
base. -/
noncomputable def similarity_to (a b : Track) : ℝ :=
  let v := simVec a b
  let n : ℝ := (v.length : ℕ)
  let exp_sum : ℝ := (v.map (fun s => Real.exp (((scoreBase : ℚ) : ℝ) * (s : ℚ)))).sum
  (exp_sum - n * Real.exp 0) / (n * Real.exp ((scoreBase : ℚ) : ℝ) - n * Real.exp 0)

/-! ### Concrete sample data used by witnesses and counterexamples -/

/-- A concrete fully-populated track used to build sample inputs. -/
def baseTrack : Track :=
  { name := "song", track_artist := "artist", album := "album",
    album_artist := "artist", genre := "pop", year := 2000, track_number := 1,
    play_count := 1, skip_count := 0, duration := 200, date_added := 1000,
    compilation := false, favorite := false, disliked := false,
    last_played := 5000, last_skipped := 4000, score := 1, overdue := 0,
    playlists := ["p"] }

/-- An empty down-ranking configuration. -/
def cfg0 : DownrankConfig := { artists := [], genres := [] }

/-- A configuration down-ranking the genre "rock". -/
def cfgRock : DownrankConfig := { artists := [], genres := ["rock"] }

/-- Sample track "a". -/
def tA : Track := { baseTrack with name := "a" }

/-- Sample track "b". -/
def tB : Track := { baseTrack with name := "b" }

/-- A track that is both down-ranked (genre "Rock") and a favorite. -/
def tBoth : Track := { baseTrack with genre := "Rock", favorite := true }

/-- A track whose adjusted shuffle weight is zero (`1 + overdue = 0`). -/
def tZero : Track := { baseTrack with name := "z", overdue := -1 }

/-- Sample tracks exercising the duration filter: the middle track does
not fit the budget `35` but the last one does. -/
def demoTracks : List Track :=
  [ { baseTrack with name := "x", duration := 10 },
    { baseTrack with name := "y", duration := 40 },
    { baseTrack with name := "z", duration := 20 } ]

/-! ### Folded min/max helpers -/

/-- A `foldl min` scan is bounded by its initial accumulator. -/
theorem foldl_min_le_init (as : List ℚ) : ∀ acc : ℚ, as.foldl min acc ≤ acc := by
  induction as with
  | nil => intro acc; exact le_refl acc
  | cons a as ih =>
    intro acc
    exact le_trans (ih (min acc a)) (min_le_left acc a)

/-- A `foldl min` scan is bounded by every scanned element. -/
theorem foldl_min_le_mem (as : List ℚ) :
    ∀ (acc x : ℚ), x ∈ as → as.foldl min acc ≤ x := by
  induction as with
  | nil => intro acc x hx; cases hx
  | cons a as ih =>
    intro acc x hx
    rcases List.mem_cons.mp hx with h | h
    · subst h
      exact le_trans (foldl_min_le_init as (min acc x)) (min_le_right acc x)
    · exact ih (min acc a) x h

/-- A `foldl max` scan dominates its initial accumulator. -/
theorem init_le_foldl_max (as : List ℚ) : ∀ acc : ℚ, acc ≤ as.foldl max acc := by
  induction as with
  | nil => intro acc; exact le_refl acc
  | cons a as ih =>
    intro acc
    exact le_trans (le_max_left acc a) (ih (max acc a))

/-- A `foldl max` scan dominates every scanned element. -/
theorem mem_le_foldl_max (as : List ℚ) :
    ∀ (acc x : ℚ), x ∈ as → x ≤ as.foldl max acc := by
  induction as with
  | nil => intro acc x hx; cases hx
  | cons a as ih =>
    intro acc x hx
    rcases List.mem_cons.mp hx with h | h
    · subst h
      exact le_trans (le_max_right acc x) (init_le_foldl_max as (max acc x))
    · exact ih (max acc a) x h

/-- `statsMin` bounds every value of a list from below. -/
theorem statsMin_le (l : List ℚ) (x : ℚ) (hx : x ∈ l) : statsMin l ≤ x := by
  cases l with
  | nil => cases hx
  | cons a as =>
    rcases List.mem_cons.mp hx with h | h
    · subst h; exact foldl_min_le_init as x
    · exact foldl_min_le_mem as a x h

/-- `statsMax` bounds every value of a list from above. -/
theorem le_statsMax (l : List ℚ) (x : ℚ) (hx : x ∈ l) : x ≤ statsMax l := by
  cases l with
  | nil => cases hx
  | cons a as =>
    rcases List.mem_cons.mp hx with h | h
    · subst h; exact init_le_foldl_max as x
    · exact mem_le_foldl_max as a x h

/-- `pyInsert` builds a permutation of consing. -/
theorem pyInsert_perm {α : Type} (le : α → α → Bool) (x : α) (l : List α) :
    List.Perm (pyInsert le x l) (x :: l) := by
  induction l with
  | nil => exact List.Perm.refl _
  | cons y ys ih =>
    rw [pyInsert]
    by_cases h : le x y = true
    · rw [if_pos h]
    · rw [if_neg h]
      exact (ih.cons y).trans (List.Perm.swap x y ys)

/-- `pySorted` permutes its input. -/
theorem pySorted_perm {α : Type} (le : α → α → Bool) (l : List α) :
    List.Perm (pySorted le l) l := by
  induction l with
  | nil => exact List.Perm.refl _
  | cons x xs ih =>
    exact (pyInsert_perm le x (pySorted le xs)).trans (ih.cons x)

/-- Every entry the median formula reads is a member of the input list. -/
theorem statsMedian_getD_mem (l : List ℚ) (i : ℕ)
    (hi : i < l.length) :
    (pySorted (fun a b => decide (a ≤ b)) l).getD i 0 ∈ l := by
  have hperm := pySorted_perm (fun a b => decide (a ≤ b)) l
  have hlen : (pySorted (fun a b => decide (a ≤ b)) l).length = l.length :=
    hperm.length_eq
  have hi2 : i < (pySorted (fun a b => decide (a ≤ b)) l).length := by rwa [hlen]
  have hget : (pySorted (fun a b => decide (a ≤ b)) l).getD i 0 =
      (pySorted (fun a b => decide (a ≤ b)) l)[i] := by
    simp [List.getD_eq_getElem?_getD, List.getElem?_eq_getElem hi2]
  rw [hget]
  exact hperm.mem_iff.mp (List.getElem_mem hi2)

/-- C10: for every non-empty list of values, the aggregator's summary
satisfies `min ≤ avg ≤ max` and `min ≤ median ≤ max`. -/
theorem stats_bounds (l : List ℚ) (hne : l ≠ []) :
    statsMin l ≤ statsAvg l ∧ statsAvg l ≤ statsMax l ∧
    statsMin l ≤ statsMedian l ∧ statsMedian l ≤ statsMax l := by
  have hlen : 0 < l.length := List.length_pos.mpr hne
  have hlenQ : (0 : ℚ) < (l.length : ℚ) := by exact_mod_cast hlen
  have hmin_sum : (l.length : ℚ) * statsMin l ≤ l.sum := by
    have := List.card_nsmul_le_sum l (statsMin l) (fun x hx => statsMin_le l x hx)
    simpa [nsmul_eq_mul] using this
  have hsum_max : l.sum ≤ (l.length : ℚ) * statsMax l := by
    have := List.sum_le_card_nsmul l (statsMax l) (fun x hx => le_statsMax l x hx)
    simpa [nsmul_eq_mul] using this
  have havg1 : statsMin l ≤ statsAvg l := by
    rw [statsAvg, statsTotal, le_div_iff₀ hlenQ]
    linarith
  have havg2 : statsAvg l ≤ statsMax l := by
    rw [statsAvg, statsTotal, div_le_iff₀ hlenQ]
    linarith
  have hmed : statsMin l ≤ statsMedian l ∧ statsMedian l ≤ statsMax l := by
    rw [statsMedian]
    by_cases hodd : l.length % 2 = 1
    · rw [if_pos hodd]
      have hhalf : l.length / 2 < l.length := Nat.div_lt_self hlen (by norm_num)
      have hm := statsMedian_getD_mem l (l.length / 2) hhalf
      exact ⟨statsMin_le l _ hm, le_statsMax l _ hm⟩
    · rw [if_neg hodd]
      have hhalf : l.length / 2 < l.length := Nat.div_lt_self hlen (by norm_num)
      have hhalf1 : l.length / 2 - 1 < l.length :=
        lt_of_le_of_lt (Nat.sub_le _ _) hhalf
      have hm1 := statsMedian_getD_mem l (l.length / 2 - 1) hhalf1
      have hm2 := statsMedian_getD_mem l (l.length / 2) hhalf
      have h1a := statsMin_le l _ hm1
      have h1b := le_statsMax l _ hm1
      have h2a := statsMin_le l _ hm2
      have h2b := le_statsMax l _ hm2
      constructor
      · linarith
      · linarith
  exact ⟨havg1, havg2, hmed.1, hmed.2⟩

/-- Witness for C10 at the concrete input `[2, 4, 9]`. -/
theorem stats_bounds_witness :
    statsMin [2, 4, 9] ≤ statsAvg [2, 4, 9] ∧
    statsAvg [2, 4, 9] ≤ statsMax [2, 4, 9] ∧
    statsMin [2, 4, 9] ≤ statsMedian [2, 4, 9] ∧
    statsMedian [2, 4, 9] ≤ statsMax [2, 4, 9] :=
  stats_bounds [2, 4, 9] (by decide)

/-! ### C4: the mode and its tie-breaking -/

/-- The scan of Python `max(..., key=...)` stays inside the scanned
elements together with the running best. -/
theorem foldl_pyMax_mem (key : ℚ → ℕ) (ys : List ℚ) :
    ∀ x : ℚ,
      ys.foldl (fun best y => if key best < key y then y else best) x ∈ x :: ys := by
  induction ys with
  | nil => intro x; simp
  | cons y ys ih =>
    intro x
    simp only [List.foldl_cons]
    by_cases h : key x < key y
    · rw [if_pos h]
      rcases List.mem_cons.mp (ih y) with h2 | h2
      · rw [h2]; exact List.mem_cons_of_mem x (List.mem_cons_self y ys)
      · exact List.mem_cons_of_mem x (List.mem_cons_of_mem y h2)
    · rw [if_neg h]
      rcases List.mem_cons.mp (ih x) with h2 | h2
      · rw [h2]; exact List.mem_cons_self x (y :: ys)
      · exact List.mem_cons_of_mem x (List.mem_cons_of_mem y h2)

/-- The scan of Python `max(..., key=...)` dominates the key of every
scanned element and of the running best. -/
theorem foldl_pyMax_le (key : ℚ → ℕ) (ys : List ℚ) :
    ∀ x z : ℚ, z ∈ x :: ys →
      key z ≤ key (ys.foldl (fun best y => if key best < key y then y else best) x) := by
  induction ys with
  | nil =>
    intro x z hz
    rcases List.mem_cons.mp hz with h | h
    · rw [h]; exact le_refl _
    · cases h
  | cons y ys ih =>
    intro x z hz
    simp only [List.foldl_cons]
    have hxb : key x ≤ key (if key x < key y then y else x) := by
      by_cases h : key x < key y
      · rw [if_pos h]; exact le_of_lt h
      · rw [if_neg h]
    have hyb : key y ≤ key (if key x < key y then y else x) := by
      by_cases h : key x < key y
      · rw [if_pos h]
      · rw [if_neg h]; exact le_of_not_lt h
    have hbest := ih (if key x < key y then y else x) (if key x < key y then y else x)
      (List.mem_cons_self _ ys)
    rcases List.mem_cons.mp hz with h | h
    · rw [h]; exact le_trans hxb hbest
    · rcases List.mem_cons.mp h with h2 | h2
      · rw [h2]; exact le_trans hyb hbest
      · exact ih (if key x < key y then y else x) z (List.mem_cons_of_mem _ h2)

/-- The Python `max(..., key=...)` scan returns an element of its
(non-empty) input. -/
theorem pyMaxBy_mem (key : ℚ → ℕ) (l : List ℚ) (hne : l ≠ []) :
    pyMaxBy key l ∈ l := by
  cases l with
  | nil => exact absurd rfl hne
  | cons x xs => exact foldl_pyMax_mem key xs x

/-- The Python `max(..., key=...)` scan maximizes the key over its
input. -/
theorem pyMaxBy_le (key : ℚ → ℕ) (l : List ℚ) (x : ℚ) (hx : x ∈ l) :
    key x ≤ key (pyMaxBy key l) := by
  cases l with
  | nil => cases hx
  | cons a as => exact foldl_pyMax_le key as a x hx

/-- The modelled set order enumerates exactly the distinct values. -/
theorem mem_pySetList (l : List ℚ) (x : ℚ) : x ∈ pySetList l ↔ x ∈ l := by
  rw [pySetList]
  rw [(pySorted_perm (fun a b => decide (a ≤ b)) l.dedup).mem_iff]
  exact List.mem_dedup

/-- The modelled set order of a non-empty list is non-empty. -/
theorem pySetList_ne_nil (l : List ℚ) (hne : l ≠ []) : pySetList l ≠ [] := by
  intro h
  have : l.dedup = [] := by
    have hlen := (pySorted_perm (fun a b => decide (a ≤ b)) l.dedup).length_eq
    rw [pySetList] at h
    rw [h] at hlen
    exact List.eq_nil_of_length_eq_zero hlen.symm
  exact hne ((List.dedup_eq_nil l).mp this)

/-- C4 (counterexample): on the input `[2, 1, 1, 2]` the two values are
tied for maximal frequency; the value whose first occurrence comes
earliest is `2`, but the aggregator's mode — which scans `set(values)`
in hash order, i.e. ascending for these small integers — returns `1`. -/
theorem mode_tiebreak_cex :
    statsMode [2, 1, 1, 2] = 1 ∧ firstSeenMode [2, 1, 1, 2] = 2 ∧
    List.count 1 [(2 : ℚ), 1, 1, 2] = List.count 2 [(2 : ℚ), 1, 1, 2] ∧
    (1 : ℚ) ≠ 2 := by
  refine ⟨by decide, by decide, by decide, by norm_num⟩

/-- C4 (amended): for every non-empty list, the aggregator's mode is a
value of the list of maximal frequency; ties are broken by the iteration
order of the deduplicated value set (hash order), not by first
occurrence in the input. -/
theorem mode_max_frequency (l : List ℚ) (hne : l ≠ []) :
    statsMode l ∈ l ∧ ∀ v ∈ l, l.count v ≤ l.count (statsMode l) := by
  constructor
  · rw [statsMode]
    exact (mem_pySetList l _).mp
      (pyMaxBy_mem (fun v => l.count v) (pySetList l) (pySetList_ne_nil l hne))
  · intro v hv
    rw [statsMode]
    exact pyMaxBy_le (fun v => l.count v) (pySetList l) v
      ((mem_pySetList l v).mpr hv)

/-- Witness for the amended C4 at the concrete input `[2, 1, 1, 2]`. -/
theorem mode_max_frequency_witness :
    statsMode [2, 1, 1, 2] ∈ [(2 : ℚ), 1, 1, 2] ∧
    ∀ v ∈ [(2 : ℚ), 1, 1, 2],
      List.count v [(2 : ℚ), 1, 1, 2] ≤
        List.count (statsMode [2, 1, 1, 2]) [(2 : ℚ), 1, 1, 2] :=
  mode_max_frequency [2, 1, 1, 2] (by decide)

/-! ### C2: the resampling weight formula -/

/-- Modelled from the spec sentences of the claim: the base weight
`(score − min + floor) · (1 + overdue)` with the two policy adjustments
applied *independently* — halved when down-ranked and doubled when
favorite, both applying to a track that is both. -/
def claimWeight (cfg : DownrankConfig) (min_score : ℚ) (t : Track) : ℚ :=
  let w := (t.score - min_score + (1 : ℚ) / 100) * (1 + t.overdue)
  let w := if is_downranked cfg t then w / 2 else w
  if t.favorite then w * 2 else w

/-- C2 (counterexample): for a track that is both down-ranked and a
favorite the code's `elif` applies only the halving, so the computed
weight (`101/200`) differs from the claimed value with both adjustments
(`101/100`). -/
theorem track_weight_cex :
    is_downranked cfgRock tBoth = true ∧ tBoth.favorite = true ∧
    trackWeight cfgRock 0 tBoth = 101 / 200 ∧
    claimWeight cfgRock 0 tBoth = 101 / 100 ∧
    trackWeight cfgRock 0 tBoth ≠ claimWeight cfgRock 0 tBoth := by
  have hd : is_downranked cfgRock tBoth = true := by decide
  have h1 : trackWeight cfgRock 0 tBoth = 101 / 200 := by
    simp only [trackWeight, hd, if_true]
    norm_num [tBoth, baseTrack]
  have h2 : claimWeight cfgRock 0 tBoth = 101 / 100 := by
    simp only [claimWeight, hd, if_true]
    norm_num [tBoth, baseTrack]
  refine ⟨hd, by decide, h1, h2, ?_⟩
  rw [h1, h2]
  norm_num

/-- C2 (amended): the weight is
`(score − min_score + 0.01) · (1 + overdue)`, halved when the track is
down-ranked, and doubled when it is a favorite **only if it is not
down-ranked** (the source's `elif` makes the adjustments mutually
exclusive, down-ranking taking precedence). -/
theorem track_weight_formula (cfg : DownrankConfig) (m : ℚ) (t : Track) :
    (is_downranked cfg t = true →
      trackWeight cfg m t = (t.score - m + 1 / 100) * (1 + t.overdue) / 2) ∧
    (is_downranked cfg t = false → t.favorite = true →
      trackWeight cfg m t = (t.score - m + 1 / 100) * (1 + t.overdue) * 2) ∧
    (is_downranked cfg t = false → t.favorite = false →
      trackWeight cfg m t = (t.score - m + 1 / 100) * (1 + t.overdue)) := by
  refine ⟨fun h => ?_, fun h hf => ?_, fun h hf => ?_⟩
  · rw [trackWeight]; rw [if_pos h]
  · rw [trackWeight]; rw [if_neg (by rw [h]; exact Bool.false_ne_true), if_pos hf]
  · rw [trackWeight]; rw [if_neg (by rw [h]; exact Bool.false_ne_true),
      if_neg (by rw [hf]; exact Bool.false_ne_true)]

/-- Witness for the amended C2: the down-ranked favorite `tBoth` gets
exactly the halved base weight. -/
theorem track_weight_formula_witness :
    trackWeight cfgRock 0 tBoth =
      (tBoth.score - 0 + 1 / 100) * (1 + tBoth.overdue) / 2 :=
  (track_weight_formula cfgRock 0 tBoth).1 (by decide)

/-! ### C7: the mixtape duration budget -/

/-- The running total of `filter_duration` never exceeds the budget. -/
theorem filterDurAux_bound (budget : ℚ) :
    ∀ (tracks : List Track) (length : ℚ), length ≤ budget →
      length + durSum (filterDurAux budget length tracks) ≤ budget := by
  intro tracks
  induction tracks with
  | nil => intro length h; simpa [durSum, filterDurAux] using h
  | cons t ts ih =>
    intro length h
    rw [filterDurAux]
    by_cases hfit : length + t.duration ≤ budget
    · rw [if_pos hfit]
      have := ih (length + t.duration) hfit
      simp only [durSum, List.map_cons, List.sum_cons] at this ⊢
      linarith
    · rw [if_neg hfit]
      exact ih length h

/-- Sorting does not change the cumulative duration. -/
theorem durSum_pySorted (le : Track → Track → Bool) (l : List Track) :
    durSum (pySorted le l) = durSum l := by
  rw [durSum, durSum]
  exact ((pySorted_perm le l).map Track.duration).sum_eq

/-- C7: for every source sequence and non-negative budget `B` the
cumulative duration of the accepted main sequence is at most `B`; in
particular the mixtape's main sequence (bonus track excluded) fits the
45-minute budget; and a track that would exceed the budget is skipped
while the scan continues with the remaining tracks. -/
theorem mixtape_duration_bound :
    (∀ (tracks : List Track) (B : ℚ), 0 ≤ B →
      durSum (filter_duration tracks B) ≤ B) ∧
    (∀ (now : ℚ) (tracks : List Track),
      durSum (mixtapeMain now tracks) ≤ mixtapeBudget) ∧
    (∀ (B acc : ℚ) (t : Track) (rest : List Track),
      ¬ (acc + t.duration ≤ B) →
        filterDurAux B acc (t :: rest) = filterDurAux B acc rest) := by
  refine ⟨fun tracks B hB => ?_, fun now tracks => ?_, fun B acc t rest h => ?_⟩
  · have := filterDurAux_bound B tracks 0 hB
    rw [filter_duration]
    linarith
  · rw [mixtapeMain]
    rw [durSum_pySorted]
    have hB : (0 : ℚ) ≤ mixtapeBudget := by norm_num [mixtapeBudget]
    have := filterDurAux_bound mixtapeBudget
      (filter_unique_track_numbers
        ((mixtapeMaster now tracks).filter (fun t => decide (t.track_number ≠ 0))))
      0 hB
    rw [filter_duration]
    linarith
  · rw [filterDurAux, if_neg h]

/-- Witness for C7 at a concrete budget: with budget `35`, the track of
duration `40` is skipped but the later track of duration `20` is still
accepted, and the accepted total stays within the budget. -/
theorem mixtape_duration_bound_witness :
    durSum (filter_duration demoTracks 35) ≤ 35 ∧
    (filter_duration demoTracks 35).map Track.name = ["x", "z"] :=
  ⟨mixtape_duration_bound.1 demoTracks 35 (by norm_num),
    by norm_num [filter_duration, filterDurAux, demoTracks, baseTrack]⟩

/-! ### The selection loop of the weighted resampler -/

/-- When the draw does not exceed the total remaining weight, the inner
scan of the selection loop always picks an index in range. -/
theorem pickIndex_some (ws : List ℚ) : ws ≠ [] → ∀ r : ℚ, r ≤ ws.sum →
    ∃ i, pickIndex r ws = some i ∧ i < ws.length := by
  induction ws with
  | nil => intro h; exact absurd rfl h
  | cons w ws ih =>
    intro _ r hr
    by_cases h : r - w ≤ 0
    · exact ⟨0, by rw [pickIndex, if_pos h], Nat.succ_pos _⟩
    · cases ws with
      | nil =>
        rw [List.sum_cons, List.sum_nil] at hr
        exact absurd (by linarith) h
      | cons w2 ws2 =>
        rw [List.sum_cons] at hr
        obtain ⟨i, hpick, hlt⟩ := ih (by simp) (r - w) (by linarith)
        refine ⟨i + 1, ?_, Nat.succ_lt_succ hlt⟩
        rw [pickIndex, if_neg h, hpick]
        rfl

/-- Removing the element at index `i` removes exactly its weight from
the sum. -/
theorem sum_eraseIdx (ws : List ℚ) : ∀ i, i < ws.length →
    (ws.eraseIdx i).sum = ws.sum - ws.getD i 0 := by
  induction ws with
  | nil => intro i hi; cases hi
  | cons w ws ih =>
    intro i hi
    cases i with
    | zero =>
      simp only [List.eraseIdx, List.getD_cons_zero, List.sum_cons]
      ring
    | succ n =>
      have hn : n < ws.length := Nat.succ_lt_succ_iff.mp (by simpa using hi)
      simp only [List.eraseIdx, List.getD_cons_succ, List.sum_cons, ih n hn]
      ring

/-- Popping index `i` and consing the popped element back is a
permutation of the original list. -/
theorem perm_cons_eraseIdx (l : List Track) (i : ℕ) (hi : i < l.length) :
    List.Perm (l[i] :: l.eraseIdx i) l := by
  have h1 : l.eraseIdx i = l.take i ++ l.drop (i + 1) :=
    List.eraseIdx_eq_take_drop_succ l i
  have h2 : l.drop i = l[i] :: l.drop (i + 1) := List.drop_eq_getElem_cons hi
  have h3 : l.take i ++ l[i] :: l.drop (i + 1) = l := by
    rw [← h2]
    exact List.take_append_drop i l
  rw [h1]
  have hmid := @List.perm_middle Track l[i] (l.take i) (l.drop (i + 1))
  rw [h3] at hmid
  exact hmid.symm

/-- Main loop invariant: with enough fuel, matching weight/track lists,
non-negative weights, and draws that never exceed a non-negative bound,
the selection loop succeeds and returns a permutation of the remaining
tracks. -/
theorem shuffleLoop_perm (draws : ℕ → ℚ → ℚ)
    (hdraws : ∀ j b, 0 ≤ b → draws j b ≤ b) :
    ∀ (n : ℕ) (k : ℕ) (ts : List Track) (ws : List ℚ),
      ts.length ≤ n → ws.length = ts.length → (∀ w ∈ ws, 0 ≤ w) →
      ∃ out, shuffleLoop draws n k ts ws ws.sum = some out ∧
        List.Perm out ts := by
  intro n
  induction n with
  | zero =>
    intro k ts ws hle _ _
    have : ts = [] := List.eq_nil_of_length_eq_zero (Nat.le_zero.mp hle)
    subst this
    exact ⟨[], by rw [shuffleLoop]; rfl, List.Perm.refl _⟩
  | succ n ih =>
    intro k ts ws hle hlen hnn
    cases ts with
    | nil => exact ⟨[], by rw [shuffleLoop], List.Perm.refl _⟩
    | cons t rest =>
      have hts_ne : ws ≠ [] := by
        intro h
        rw [h] at hlen
        exact absurd hlen.symm (by simp)
      have htot : (0 : ℚ) ≤ ws.sum := List.sum_nonneg hnn
      have hr := hdraws k ws.sum htot
      obtain ⟨i, hpick, hiw⟩ := pickIndex_some ws hts_ne (draws k ws.sum) hr
      have hit : i < (t :: rest).length := by rw [← hlen]; exact hiw
      have hget : (t :: rest)[i]? = some (t :: rest)[i] :=
        List.getElem?_eq_getElem hit
      have htotrec : ws.sum - ws.getD i 0 = (ws.eraseIdx i).sum :=
        (sum_eraseIdx ws i hiw).symm
      have hlen2 : (ws.eraseIdx i).length = ((t :: rest).eraseIdx i).length := by
        rw [List.length_eraseIdx_of_lt hiw, List.length_eraseIdx_of_lt hit, hlen]
      have hle2 : ((t :: rest).eraseIdx i).length ≤ n := by
        rw [List.length_eraseIdx_of_lt hit]
        exact Nat.le_of_succ_le_succ (by
          have : (t :: rest).length ≤ n + 1 := hle
          omega)
      have hnn2 : ∀ w ∈ ws.eraseIdx i, 0 ≤ w := fun w hw =>
        hnn w (List.mem_of_mem_eraseIdx hw)
      obtain ⟨out1, hout1, hperm1⟩ :=
        ih (k + 1) ((t :: rest).eraseIdx i) (ws.eraseIdx i) hle2 hlen2 hnn2
      refine ⟨(t :: rest)[i] :: out1, ?_, ?_⟩
      · rw [shuffleLoop]
        simp only [hpick, hget]
        rw [htotrec, hout1]
        rfl
      · exact List.Perm.trans (hperm1.cons _) (perm_cons_eraseIdx (t :: rest) i hit)

/-- Any successful run of the selection loop returns only tracks of its
input pool. -/
theorem shuffleLoop_mem (draws : ℕ → ℚ → ℚ) :
    ∀ (n : ℕ) (k : ℕ) (ts : List Track) (ws : List ℚ) (tot : ℚ)
      (out : List Track), shuffleLoop draws n k ts ws tot = some out →
      ∀ x ∈ out, x ∈ ts := by
  intro n
  induction n with
  | zero =>
    intro k ts ws tot out h
    rw [shuffleLoop] at h
    by_cases he : ts.isEmpty
    · rw [if_pos he] at h
      cases h
      intro x hx
      cases hx
    · rw [if_neg he] at h
      cases h
  | succ n ih =>
    intro k ts ws tot out h
    cases ts with
    | nil =>
      rw [shuffleLoop] at h
      cases h
      intro x hx
      cases hx
    | cons t rest =>
      rw [shuffleLoop] at h
      cases hpick : pickIndex (draws k tot) ws with
      | none => simp only [hpick] at h; cases h
      | some i =>
        simp only [hpick] at h
        cases hget : (t :: rest)[i]? with
        | none => simp only [hget] at h; cases h
        | some picked =>
          simp only [hget] at h
          cases hrec : shuffleLoop draws n (k + 1) ((t :: rest).eraseIdx i)
              (ws.eraseIdx i) (tot - ws.getD i 0) with
          | none => simp only [hrec] at h; cases h
          | some out1 =>
            simp only [hrec] at h
            have hout : out = picked :: out1 := by
              cases h
              rfl
            subst hout
            intro x hx
            rcases List.mem_cons.mp hx with hx | hx
            · subst hx
              have := List.getElem?_eq_some_iff.mp hget
              obtain ⟨hlt, hEq⟩ := this
              exact hEq ▸ List.getElem_mem hlt
            · exact List.mem_of_mem_eraseIdx (ih _ _ _ _ _ hrec x hx)

/-- The minimum score bounds every score of the list from below. -/
theorem minScore_le (ts : List Track) (t : Track) (ht : t ∈ ts) :
    minScore ts ≤ t.score := by
  cases ts with
  | nil => cases ht
  | cons a as =>
    have key : ∀ (l : List Track) (acc : ℚ),
        l.foldl (fun m x => min m x.score) acc ≤ acc ∧
        ∀ x ∈ l, l.foldl (fun m x => min m x.score) acc ≤ x.score := by
      intro l
      induction l with
      | nil => intro acc; exact ⟨le_refl _, fun x hx => absurd hx (by simp)⟩
      | cons b bs ih =>
        intro acc
        constructor
        · exact le_trans (ih (min acc b.score)).1 (min_le_left _ _)
        · intro x hx
          rcases List.mem_cons.mp hx with h | h
          · subst h
            exact le_trans (ih (min acc x.score)).1 (min_le_right _ _)
          · exact (ih (min acc b.score)).2 x h
    rcases List.mem_cons.mp ht with h | h
    · subst h
      exact (key as t.score).1
    · exact (key as a.score).2 t h

/-- With `1 + overdue` non-negative on every track, all adjusted shuffle
weights are non-negative. -/
theorem shuffleWeights_nonneg (cfg : DownrankConfig) (ts : List Track)
    (hover : ∀ t ∈ ts, 0 ≤ 1 + t.overdue) :
    ∀ w ∈ shuffleWeights cfg ts, 0 ≤ w := by
  intro w hw
  rw [shuffleWeights] at hw
  obtain ⟨t, ht, hEq⟩ := List.mem_map.mp hw
  subst hEq
  have hbase : (0 : ℚ) ≤ t.score - minScore ts + 1 / 100 := by
    have := minScore_le ts t ht
    linarith
  have hprod : (0 : ℚ) ≤ (t.score - minScore ts + 1 / 100) * (1 + t.overdue) :=
    mul_nonneg hbase (hover t ht)
  rw [trackWeight]
  by_cases hd : is_downranked cfg t
  · rw [if_pos hd]
    positivity
  · rw [if_neg hd]
    by_cases hf : t.favorite
    · rw [if_pos hf]
      positivity
    · rw [if_neg hf]
      exact hprod

/-- The weight list and the track list have the same length. -/
theorem shuffleWeights_length (cfg : DownrankConfig) (ts : List Track) :
    (shuffleWeights cfg ts).length = ts.length := by
  rw [shuffleWeights, List.length_map]

/-- Every LCG state is below the modulus. -/
theorem lcgIter_lt (seed : ℕ) : ∀ n, lcgIter seed n < 4294967296 := by
  intro n
  cases n with
  | zero => exact Nat.mod_lt _ (by norm_num)
  | succ n => exact Nat.mod_lt _ (by norm_num)

/-- The modelled `random.uniform(0, b)` lies within `[0, b]` for a
non-negative bound. -/
theorem pyUniform_bounds (seed k : ℕ) (b : ℚ) (hb : 0 ≤ b) :
    0 ≤ pyUniform seed k b ∧ pyUniform seed k b ≤ b := by
  have hfrac0 : (0 : ℚ) ≤ (lcgIter seed (k + 1) : ℚ) / 4294967296 := by
    positivity
  have hfrac1 : (lcgIter seed (k + 1) : ℚ) / 4294967296 ≤ 1 := by
    rw [div_le_one (by norm_num)]
    exact_mod_cast (lcgIter_lt seed (k + 1)).le
  constructor
  · exact mul_nonneg hb hfrac0
  · rw [pyUniform]
    calc b * ((lcgIter seed (k + 1) : ℚ) / 4294967296) ≤ b * 1 :=
        mul_le_mul_of_nonneg_left hfrac1 hb
    _ = b := mul_one b

/-- Shared helper: the resampler succeeds and emits a permutation
whenever every `1 + overdue` is non-negative. -/
theorem weightedShuffle_perm_of_nonneg (seed : ℕ) (cfg : DownrankConfig)
    (tracks : List Track) (hne : tracks ≠ [])
    (hover : ∀ t ∈ tracks, 0 ≤ 1 + t.overdue) :
    ∃ out, weightedShuffle (pyUniform seed) cfg tracks = some out ∧
      List.Perm out tracks := by
  cases tracks with
  | nil => exact absurd rfl hne
  | cons t rest =>
    have hdraws : ∀ j b, 0 ≤ b → pyUniform seed j b ≤ b := fun j b hb =>
      (pyUniform_bounds seed j b hb).2
    obtain ⟨out, hout, hperm⟩ := shuffleLoop_perm (pyUniform seed) hdraws
      (t :: rest).length 0 (t :: rest) (shuffleWeights cfg (t :: rest))
      (le_refl _) (shuffleWeights_length cfg (t :: rest))
      (shuffleWeights_nonneg cfg (t :: rest) hover)
    exact ⟨out, hout, hperm⟩

/-- C1: for every non-empty track list (with the metric engine's
invariant `overdue ≥ −1`, which makes every adjusted weight
non-negative), `weighted_shuffle` returns a permutation of its input:
same multiset, same length, nothing duplicated or omitted. -/
theorem weighted_shuffle_permutation (seed : ℕ) (cfg : DownrankConfig)
    (tracks : List Track) (hne : tracks ≠ [])
    (hover : ∀ t ∈ tracks, 0 ≤ 1 + t.overdue) :
    ∃ out, weightedShuffle (pyUniform seed) cfg tracks = some out ∧
      List.Perm out tracks ∧ out.length = tracks.length := by
  obtain ⟨out, hout, hperm⟩ :=
    weightedShuffle_perm_of_nonneg seed cfg tracks hne hover
  exact ⟨out, hout, hperm, hperm.length_eq⟩

/-- Witness for C1 at the concrete input `[tA]`. -/
theorem weighted_shuffle_permutation_witness :
    ∃ out, weightedShuffle (pyUniform 1) cfg0 [tA] = some out ∧
      List.Perm out [tA] ∧ out.length = [tA].length :=
  weighted_shuffle_permutation 1 cfg0 [tA] (by simp)
    (by
      intro t ht
      rw [List.mem_singleton] at ht
      subst ht
      norm_num [tA, baseTrack])

/-! ### C3: no positivity check on the adjusted weights -/

/-- A draw stream that always returns `0`, a legitimate value of
`random.uniform(0, total)`. -/
def draws0 : ℕ → ℚ → ℚ := fun _ _ => 0

/-- The weight list of the C3 counterexample input: the first track has
`1 + overdue = 0`, so its adjusted weight is `0` (non-positive). -/
theorem shuffleWeights_tZero :
    shuffleWeights cfg0 [tZero, tB] = [0, 1 / 100] := by
  norm_num [shuffleWeights, trackWeight, minScore, is_downranked, cfg0, tZero,
    tB, baseTrack]

/-- C3 (counterexample): on an input containing a track of non-positive
adjusted weight (`0`), `weighted_shuffle` raises no error at all — the
run proceeds and emits a full permutation. -/
theorem weight_no_error_cex :
    (∃ w ∈ shuffleWeights cfg0 [tZero, tB], w ≤ 0) ∧
    weightedShuffle draws0 cfg0 [tZero, tB] = some [tZero, tB] := by
  constructor
  · exact ⟨0, by rw [shuffleWeights_tZero]; exact List.mem_cons_self 0 _, le_refl 0⟩
  · norm_num [weightedShuffle, shuffleLoop, shuffleWeights, trackWeight, minScore,
      is_downranked, cfg0, tZero, tB, baseTrack, pickIndex, draws0]

/-- C3 (amended): the resampler performs no positivity check: a
non-positive adjusted weight is used as-is, and in particular on an
input with a zero-weight track (`1 + overdue = 0`, all other weights
non-negative) it still succeeds and emits a full permutation instead of
raising a data/config error. -/
theorem weight_no_positivity_check (seed : ℕ) (cfg : DownrankConfig)
    (tracks : List Track) (hne : tracks ≠ [])
    (hover : ∀ t ∈ tracks, 0 ≤ 1 + t.overdue)
    (hzero : ∃ t ∈ tracks, 1 + t.overdue = 0) :
    ∃ out, weightedShuffle (pyUniform seed) cfg tracks = some out ∧
      List.Perm out tracks := by
  obtain ⟨t0, _, _⟩ := hzero
  exact weightedShuffle_perm_of_nonneg seed cfg tracks hne hover

/-- Witness for the amended C3 at the concrete input `[tZero, tB]`. -/
theorem weight_no_positivity_check_witness :
    ∃ out, weightedShuffle (pyUniform 0) cfg0 [tZero, tB] = some out ∧
      List.Perm out [tZero, tB] :=
  weight_no_positivity_check 0 cfg0 [tZero, tB] (by simp)
    (by
      intro t ht
      rcases List.mem_cons.mp ht with h | h
      · subst h; norm_num [tZero, baseTrack]
      · rw [List.mem_singleton] at h
        subst h
        norm_num [tB, baseTrack])
    ⟨tZero, List.mem_cons_self _ _, by norm_num [tZero, baseTrack]⟩

/-! ### C8: determinism of the seeded resampler -/

/-- Helper evaluation: with the day-seed `0`, the sample input keeps its
order. -/
theorem shuffle_eval_seed0 :
    weightedShuffle (pyUniform 0) cfg0 [tA, tB] = some [tA, tB] := by
  norm_num [weightedShuffle, shuffleLoop, shuffleWeights, trackWeight, minScore,
    is_downranked, cfg0, tA, tB, baseTrack, pickIndex, pyUniform, lcgIter, lcgNext]

/-- Helper evaluation: with the day-seed `682`, the same input is
reversed. -/
theorem shuffle_eval_seed682 :
    weightedShuffle (pyUniform 682) cfg0 [tA, tB] = some [tB, tA] := by
  norm_num [weightedShuffle, shuffleLoop, shuffleWeights, trackWeight, minScore,
    is_downranked, cfg0, tA, tB, baseTrack, pickIndex, pyUniform, lcgIter, lcgNext]

/-- C8: the resampler is a deterministic function of the seed and the
input collection — two calls with the same seed and the same input give
identical outputs — while a different seed *can* change the order, as
the seeds `0` and `682` do on a concrete two-track input. -/
theorem weighted_shuffle_determinism :
    (∀ (seed : ℕ) (cfg : DownrankConfig) (tracks : List Track),
      weightedShuffle (pyUniform seed) cfg tracks =
        weightedShuffle (pyUniform seed) cfg tracks) ∧
    ∃ (s₁ s₂ : ℕ) (cfg : DownrankConfig) (tracks : List Track),
      weightedShuffle (pyUniform s₁) cfg tracks ≠
        weightedShuffle (pyUniform s₂) cfg tracks := by
  refine ⟨fun _ _ _ => rfl, 0, 682, cfg0, [tA, tB], ?_⟩
  rw [shuffle_eval_seed0, shuffle_eval_seed682]
  intro h
  have h2 : tA = tB := by
    injection h with h1
    injection h1
  have : tA.name = tB.name := congrArg Track.name h2
  simp [tA, tB, baseTrack] at this

/-! ### C9: the shuffle does not mutate its input -/

/-- C9: the caller's list object is unchanged by `weighted_shuffle`
(the body copies it before popping), and every track of a successful
output is — field for field — one of the caller's track values: no
track is modified. -/
theorem weighted_shuffle_no_mutation (draws : ℕ → ℚ → ℚ)
    (cfg : DownrankConfig) (tracks : List Track) :
    (weightedShuffleCall draws cfg tracks).2 = tracks ∧
    ∀ out, (weightedShuffleCall draws cfg tracks).1 = some out →
      ∀ t ∈ out, t ∈ tracks := by
  refine ⟨rfl, fun out hout t ht => ?_⟩
  rw [weightedShuffleCall] at hout
  simp only at hout
  cases tracks with
  | nil =>
    rw [weightedShuffle] at hout
    cases hout
  | cons a rest =>
    rw [weightedShuffle] at hout
    exact shuffleLoop_mem draws (a :: rest).length 0 (a :: rest)
      (shuffleWeights cfg (a :: rest)) (shuffleWeights cfg (a :: rest)).sum
      out hout t ht

/-- Witness for C9 at the concrete input `[tA, tB]` with seed `0`. -/
theorem weighted_shuffle_no_mutation_witness :
    (weightedShuffleCall (pyUniform 0) cfg0 [tA, tB]).2 = [tA, tB] ∧
    tA ∈ [tA, tB] :=
  ⟨(weighted_shuffle_no_mutation (pyUniform 0) cfg0 [tA, tB]).1,
    (weighted_shuffle_no_mutation (pyUniform 0) cfg0 [tA, tB]).2 [tA, tB]
      shuffle_eval_seed0 tA (List.mem_cons_self _ _)⟩

/-! ### C5: reflexivity of the similarity metric -/

/-- The feature vector of a fully-populated track (non-empty playlist
membership) against itself is all ones. -/
theorem simVec_self (a : Track) (h : a.playlists ≠ []) :
    simVec a a = [1, 1, 1, 1, 1, 1, 1, 1, 1, 1, 1, 1, 1] := by
  have hfin : a.playlists.toFinset ≠ ∅ := by
    simpa [List.toFinset_eq_empty_iff] using h
  have hcard : (0 : ℚ) < (a.playlists.toFinset.card : ℚ) := by
    exact_mod_cast Finset.card_pos.mpr (Finset.nonempty_iff_ne_empty.mpr hfin)
  rw [simVec]
  simp only [sub_self, abs_zero, Finset.union_self, Finset.inter_self,
    if_neg hfin, eq_self_iff_true, if_true, and_self]
  norm_num [medianSongLength, targetMedianScore, oneMonth]
  exact div_self (ne_of_gt hcard)

/-- C5: for every fully-populated track (its playlist set non-empty, so
the Jaccard feature is defined as a ratio), the similarity of the track
to itself is exactly `1`. -/
theorem similarity_reflexive (a : Track) (h : a.playlists ≠ []) :
    similarity_to a a = 1 := by
  rw [similarity_to]
  rw [simVec_self a h]
  have hexp : (1 : ℝ) < Real.exp (((scoreBase : ℚ) : ℝ)) := by
    rw [Real.one_lt_exp_iff]
    rw [scoreBase]
    push_cast
    norm_num
  simp only [List.map, List.sum_cons, List.sum_nil, List.length, Real.exp_zero]
  push_cast
  rw [div_eq_one_iff_eq]
  · ring_nf
  · nlinarith

/-- Witness for C5: the concrete track `baseTrack` (playlists
`["p"]`). -/
theorem similarity_reflexive_witness : similarity_to baseTrack baseTrack = 1 :=
  similarity_reflexive baseTrack (by simp [baseTrack])

/-! ### C6: monotonicity of net rate and score -/

/-- Closed form of the `net_rate` computation. -/
theorem netRate_eq (pc sc : ℕ) (d y : ℚ) :
    netRate pc sc d y =
      ((pc : ℚ) / y + ((pc : ℚ) * d) / y / medianSongLength - (sc : ℚ) / y) / 2 :=
  rfl

/-- The base-`score_base` logarithm of `1 + net_rate` is monotone where
the code's `math.log` is defined (`1 + net_rate > 0`). -/
theorem scoreOf_mono (x y : ℚ) (hx : 0 < 1 + x) (hxy : x ≤ y) :
    scoreOf x ≤ scoreOf y := by
  rw [scoreOf, scoreOf]
  have hbase : (0 : ℝ) < Real.log ((scoreBase : ℚ) : ℝ) := by
    apply Real.log_pos
    rw [scoreBase]
    push_cast
    norm_num
  have h1 : (0 : ℝ) < 1 + (x : ℚ) := by exact_mod_cast hx
  have h2 : (1 : ℝ) + (x : ℚ) ≤ 1 + (y : ℚ) := by
    have : ((x : ℚ) : ℝ) ≤ ((y : ℚ) : ℝ) := by exact_mod_cast hxy
    linarith
  have hlog := Real.log_le_log h1 h2
  exact div_le_div_of_nonneg_right hlog hbase.le

/-- C6: with age positive and duration non-negative, increasing the play
count never decreases `net_rate` nor the score, and increasing the skip
count never increases either (the score statements hold wherever the
code's `math.log(1 + net_rate, base)` is defined, i.e. where its
argument is positive). -/
theorem score_monotonicity (pc pc2 sc sc2 : ℕ) (d y : ℚ)
    (hy : 0 < y) (hd : 0 ≤ d) :
    (pc ≤ pc2 →
      netRate pc sc d y ≤ netRate pc2 sc d y ∧
      (0 < 1 + netRate pc sc d y →
        scoreOf (netRate pc sc d y) ≤ scoreOf (netRate pc2 sc d y))) ∧
    (sc ≤ sc2 →
      netRate pc sc2 d y ≤ netRate pc sc d y ∧
      (0 < 1 + netRate pc sc2 d y →
        scoreOf (netRate pc sc2 d y) ≤ scoreOf (netRate pc sc d y))) := by
  have hmsl : (0 : ℚ) < medianSongLength := by norm_num [medianSongLength]
  constructor
  · intro hpc
    have hc : (pc : ℚ) ≤ (pc2 : ℚ) := by exact_mod_cast hpc
    have hnet : netRate pc sc d y ≤ netRate pc2 sc d y := by
      rw [netRate_eq, netRate_eq]
      gcongr
    exact ⟨hnet, fun hpos => scoreOf_mono _ _ hpos hnet⟩
  · intro hsc
    have hc : (sc : ℚ) ≤ (sc2 : ℚ) := by exact_mod_cast hsc
    have hnet : netRate pc sc2 d y ≤ netRate pc sc d y := by
      rw [netRate_eq, netRate_eq]
      gcongr
    exact ⟨hnet, fun hpos => scoreOf_mono _ _ hpos hnet⟩

/-- Witness for C6 at play counts `1 ≤ 2`, skip counts `0 ≤ 1`,
duration `1`, age `1`. -/
theorem score_monotonicity_witness :
    (netRate 1 0 1 1 ≤ netRate 2 0 1 1 ∧
      scoreOf (netRate 1 0 1 1) ≤ scoreOf (netRate 2 0 1 1)) ∧
    (netRate 1 1 1 1 ≤ netRate 1 0 1 1 ∧
      scoreOf (netRate 1 1 1 1) ≤ scoreOf (netRate 1 0 1 1)) := by
  have h := score_monotonicity 1 2 0 1 1 1 (by norm_num) (by norm_num)
  have hplay := h.1 (by norm_num)
  have hskip := h.2 (by norm_num)
  refine ⟨⟨hplay.1, hplay.2 ?_⟩, ⟨hskip.1, hskip.2 ?_⟩⟩
  · norm_num [netRate_eq, medianSongLength]
  · norm_num [netRate_eq, medianSongLength]

end Tracktastic
